import Mathlib

/-!
Shallow embedding of `hook-editor.py` (TikTok video editor with Google
Sheets caption selection).  Pure fragments of the Python code are
translated to executable Lean functions; the effectful pipeline
(spreadsheet writes, ffmpeg invocations) is modelled by explicit state
passing and event traces.  Floats carrying durations are modelled by
exact rationals.
-/

namespace HookEditor

/-! ### Python string primitives (ASCII fragment), at the `List Char` level -/

/-- Python `str.lower` (ASCII). -/
def pyLower (s : String) : String := String.mk (s.data.map Char.toLower)

/-- Python `str.upper` (ASCII). -/
def pyUpper (s : String) : String := String.mk (s.data.map Char.toUpper)

/-- The whitespace characters of `string.whitespace` / `\s` (ASCII). -/
def pyIsSpace (c : Char) : Bool :=
  c = ' ' || c = '\t' || c = '\n' || c = '\x0b' || c = '\x0c' || c = '\r'

/-- Python `str.strip`: drop leading and trailing whitespace. -/
def pyStrip (s : String) : String :=
  String.mk (((s.data.dropWhile pyIsSpace).reverse.dropWhile pyIsSpace).reverse)

/-- Does `hay` start with `needle`? -/
def listStartsWith : List Char → List Char → Bool
  | _, [] => true
  | [], _ :: _ => false
  | h :: hs, n :: ns => h == n && listStartsWith hs ns

/-- Does `needle` occur contiguously inside `hay`? -/
def listContainsSub (hay needle : List Char) : Bool :=
  match hay with
  | [] => needle.isEmpty
  | _ :: t => listStartsWith hay needle || listContainsSub t needle

/-- Python `needle in haystack` for strings: substring test. -/
def pyContains (haystack needle : String) : Bool :=
  listContainsSub haystack.data needle.data

/-- Python `str.capitalize`: first char uppercased, the rest lowercased. -/
def pyCapitalize (s : String) : String :=
  match s.data with
  | [] => ""
  | c :: cs => String.mk (c.toUpper :: cs.map Char.toLower)

/-! ### Trim planner (`calculate_trimmed_duration`) -/

/-- `self.start_trim = 0.5`. -/
def start_trim : ℚ := 1/2

/-- `self.end_trim = 0.25`. -/
def end_trim : ℚ := 1/4

/-- `calculate_trimmed_duration`: subtract the start and end trims; if the
result is not positive, fall back to `max(0.1, original_duration * 0.8)`. -/
def calculate_trimmed_duration (original_duration : ℚ) : ℚ :=
  let trimmed_duration := original_duration - start_trim - end_trim
  if trimmed_duration ≤ 0 then
    max (1/10) (original_duration * (8/10))
  else
    trimmed_duration

/-! ### Type inference (`extract_type_from_filename`) -/

/-- `self.valid_types`, in the source literal's order (the Python value is a
set; the claim fixes a vocabulary ordering, and we use the literal order). -/
def valid_types : List String := ["romantic", "crying", "confused", "surprised", "sad"]

/-- The `for video_type in self.valid_types` loop body: first keyword that is
a substring of the lowercased filename, capitalized. -/
def firstTypeMatch (filename_lower : String) : List String → Option String
  | [] => none
  | t :: ts =>
    if pyContains filename_lower t then some (pyCapitalize t)
    else firstTypeMatch filename_lower ts

/-- `extract_type_from_filename`. -/
def extract_type_from_filename (filename : String) : Option String :=
  firstTypeMatch (pyLower filename) valid_types

/-! ### Caption rows and the selector (`find_next_overlay_text`)

A sheet record is modelled by its four cells as strings (the values
`get_all_records` yields, passed through Python `str`).  The remote
spreadsheet is modelled by the ordered list of its data rows; an
`update_cell` call is modelled by an explicit `CellWrite` applied to that
list. -/

structure CaptionRow where
  used : String
  mentions : String
  type : String
  text : String
deriving DecidableEq

/-- One `worksheet.update_cell(row, col, val)` call (1-indexed row with the
header at row 1, so data row `i` is sheet row `i + 2`). -/
structure CellWrite where
  row : Nat
  col : Nat
  val : String
deriving DecidableEq

/-- The selection condition of the loop in `find_next_overlay_text`:
`record_type.lower() == video_type.lower() and record_used == 'FALSE'` where
`record_type` is the stripped type cell and `record_used` the stripped,
uppercased used cell. -/
def rowEligible (video_type : String) (r : CaptionRow) : Bool :=
  pyLower (pyStrip r.type) == pyLower video_type && pyUpper (pyStrip r.used) == "FALSE"

/-- The `for i, record in enumerate(records)` scan: first eligible row with
its 0-based position. -/
def findEligible (video_type : String) : List CaptionRow → Nat → Option (Nat × CaptionRow)
  | [], _ => none
  | r :: rs, i =>
    if rowEligible video_type r then some (i, r)
    else findEligible video_type rs (i + 1)

/-- `find_next_overlay_text`: returns the stripped overlay text of the first
eligible row together with the cell writes issued (`update_cell(i + 2, 1,
'TRUE')` on a match, nothing otherwise). -/
def find_next_overlay_text (rows : List CaptionRow) (video_type : String) :
    Option String × List CellWrite :=
  match findEligible video_type rows 0 with
  | some (i, r) => (some (pyStrip r.text), [⟨i + 2, 1, "TRUE"⟩])
  | none => (none, [])

/-- Overwrite the `used?` cell of data row `i` (0-based). -/
def setUsed : List CaptionRow → Nat → String → List CaptionRow
  | [], _, _ => []
  | r :: rs, 0, v => { r with used := v } :: rs
  | r :: rs, Nat.succ n, v => r :: setUsed rs n v

/-- Effect of an `update_cell` call on the sheet state; the program only ever
writes column 1, the `used?` column. -/
def applyCellWrite (rows : List CaptionRow) (w : CellWrite) : List CaptionRow :=
  if w.col = 1 then setUsed rows (w.row - 2) w.val else rows

/-- A selector call together with its effect on the sheet state. -/
def select_and_consume (rows : List CaptionRow) (video_type : String) :
    Option String × List CaptionRow :=
  let p := find_next_overlay_text rows video_type
  (p.1, p.2.foldl applyCellWrite rows)

/-- Sequential selector calls (the single-process batch run). -/
def runSelections (rows : List CaptionRow) : List String → List CaptionRow
  | [] => rows
  | vt :: vts => runSelections (select_and_consume rows vt).2 vts

/-! ### Output naming (`pathlib.Path.stem`, `f"{input_name}_edited.mp4"`) -/

/-- Index of the last occurrence of `c`. -/
def rfindChar (c : Char) : List Char → Option Nat
  | [] => none
  | x :: xs =>
    match rfindChar c xs with
    | some i => some (i + 1)
    | none => if x == c then some 0 else none

/-- `pathlib.Path.stem` of a bare file name: the name truncated at the last
dot, provided that dot is neither the first nor the last character.
`pathlib` parses `"."` as the empty path, whose name and stem are `""`. -/
def pathStem (name : String) : String :=
  if name = "." then ""
  else match rfindChar '.' name.data with
  | some i =>
    if 0 < i ∧ i < name.data.length - 1 then String.mk (name.data.take i) else name
  | none => name

/-- Output file name used by all three render tiers:
`f"{video_path.stem}_edited.mp4"`. -/
def output_name (video_name : String) : String :=
  pathStem video_name ++ "_edited.mp4"

/-! ### Render invoker (`edit_video_with_text` cascade)

The ffmpeg subprocess is external: its outcome per tier is an input of the
model (`RunResult`).  What the code does with that outcome — which tiers it
invokes, with which arguments, in which order, and whether an output file
results — is recorded as an event trace. -/

inductive Tier where
  | full
  | fb
  | noText
deriving DecidableEq

/-- Outcome of one external subprocess invocation: an exit status, or a
Python exception raised around it. -/
inductive RunResult where
  | exited (code : Int)
  | raised
deriving DecidableEq

/-- Observable events of one video's processing. -/
inductive Ev where
  | cellWrite (w : CellWrite)
  | probe (path : String)
  | render (tier : Tier) (path : String) (overlay : Option String) (duration : ℚ)
  | wroteOutput (path : String)
deriving DecidableEq

/-- Is `e` a render invocation of tier `tier`? -/
def isRenderOf (tier : Tier) (e : Ev) : Bool :=
  match e with
  | Ev.render t2 _ _ _ => t2 == tier
  | _ => false

/-- `edit_video_no_text`: trim-only render; `returncode == 0` decides
success, an exception yields failure. -/
def edit_video_no_text (video_name : String) (trimmed_duration : ℚ)
    (res : RunResult) : Bool × List Ev :=
  let ev := [Ev.render .noText video_name none trimmed_duration]
  match res with
  | .exited code =>
    if code = 0 then (true, ev ++ [Ev.wroteOutput (output_name video_name)])
    else (false, ev)
  | .raised => (false, ev)

/-- `edit_video_fallback`: render with the built-in font; on a non-zero exit
it cascades to `edit_video_no_text`, on an exception it returns failure. -/
def edit_video_fallback (video_name overlay_text : String) (trimmed_duration : ℚ)
    (res : Tier → RunResult) : Bool × List Ev :=
  let ev := [Ev.render .fb video_name (some overlay_text) trimmed_duration]
  match res .fb with
  | .exited code =>
    if code = 0 then (true, ev ++ [Ev.wroteOutput (output_name video_name)])
    else
      let p := edit_video_no_text video_name trimmed_duration (res .noText)
      (p.1, ev ++ p.2)
  | .raised => (false, ev)

/-- `edit_video_with_text`: full render; on a non-zero exit it cascades to
`edit_video_fallback` with the same arguments, on an exception it returns
failure. -/
def edit_video_with_text (video_name overlay_text : String) (trimmed_duration : ℚ)
    (res : Tier → RunResult) : Bool × List Ev :=
  let ev := [Ev.render .full video_name (some overlay_text) trimmed_duration]
  match res .full with
  | .exited code =>
    if code = 0 then (true, ev ++ [Ev.wroteOutput (output_name video_name)])
    else
      let p := edit_video_fallback video_name overlay_text trimmed_duration res
      (p.1, ev ++ p.2)
  | .raised => (false, ev)

/-! ### Per-video pipeline (`process_single_video`) and the batch loop -/

/-- External-world inputs for one video: the ffprobe duration (0 on probe
failure, per `get_video_duration`) and the ffmpeg outcome of each tier. -/
structure VideoEnv where
  duration : ℚ
  res : Tier → RunResult

/-- `process_single_video`: infer the type from the file stem, consume a
caption, probe, plan the trim, render.  The Python guard `if not
overlay_text` fails both on `None` and on an empty string, hence the
separate empty-text branch.  Returns the success flag, the sheet
state after the call, and the event trace. -/
def process_single_video (rows : List CaptionRow) (video_name : String)
    (env : VideoEnv) : Bool × List CaptionRow × List Ev :=
  match extract_type_from_filename (pathStem video_name) with
  | none => (false, rows, [])
  | some video_type =>
    let p := find_next_overlay_text rows video_type
    let rows2 := p.2.foldl applyCellWrite rows
    let evw := p.2.map Ev.cellWrite
    match p.1 with
    | none => (false, rows2, evw)
    | some overlay_text =>
      if overlay_text = "" then (false, rows2, evw)
      else
        let trimmed_duration := calculate_trimmed_duration env.duration
        let q := edit_video_with_text video_name overlay_text trimmed_duration env.res
        (q.1, rows2, evw ++ [Ev.probe video_name] ++ q.2)

/-- The per-video part of `run`: sequence the videos, collecting the
successful and the failed file names. -/
def runBatch (env : String → VideoEnv) (rows : List CaptionRow) :
    List String → (List String × List String) × List CaptionRow
  | [] => (([], []), rows)
  | v :: vs =>
    let p := process_single_video rows v (env v)
    let q := runBatch env p.2.1 vs
    if p.1 then ((v :: q.1.1, q.1.2), q.2) else ((q.1.1, v :: q.1.2), q.2)

/-! ### Text layout (`wrap_text_for_margins`, i.e. `textwrap.fill(text,
width=23, break_long_words=False)`)

`textwrap.fill` first munges whitespace (`expand_tabs` then
`replace_whitespace`, both on by default), splits the text into chunks with
`wordsep_re` (whitespace runs; em-dash runs between word material; word
fragments, breakable after a hyphen that is preceded by two letters or by
letter-hyphen-letter and followed by letter, optional hyphen, letter —
`break_on_hyphens` is on by default), and then lays the chunks out greedily
(`_wrap_chunks` with `drop_whitespace=True` and, here,
`break_long_words=False`).  The embedding below follows that structure;
character classes are taken at their ASCII fragment. -/

/-- `str.expandtabs(8)`: each tab becomes spaces up to the next multiple of
eight; the column resets after a newline or carriage return. -/
def expandTabsAux : List Char → Nat → List Char
  | [], _ => []
  | c :: cs, col =>
    if c = '\t' then
      let n := 8 - col % 8
      List.replicate n ' ' ++ expandTabsAux cs (col + n)
    else if c = '\n' || c = '\r' then c :: expandTabsAux cs 0
    else c :: expandTabsAux cs (col + 1)

/-- `TextWrapper._munge_whitespace`: expand tabs, then replace each
whitespace character by a single space. -/
def mungeWhitespace (s : String) : List Char :=
  (expandTabsAux s.data 0).map fun c => if pyIsSpace c then ' ' else c

/-- Regex `\w` (ASCII): letters, digits, underscore. -/
def isWordChar (c : Char) : Bool := c.isAlphanum || c = '_'

/-- Regex `[^\d\W]` (ASCII): word characters that are not digits. -/
def isLetter (c : Char) : Bool := isWordChar c && !c.isDigit

/-- The lookbehind class `[\w!"'&.,?]` of `wordsep_re`'s em-dash rules. -/
def isWordPunct (c : Char) : Bool :=
  isWordChar c || c = '!' || c = '"' || c = Char.ofNat 39 || c = '&' ||
    c = '.' || c = ',' || c = '?'

/-- Lookahead `(?=[^\d\W]-?[^\d\W])` after a candidate hyphen break. -/
def hyphLookahead : List Char → Bool
  | a :: b :: rest =>
    isLetter a &&
      (isLetter b ||
        (b = '-' && (match rest with | z :: _ => isLetter z | [] => false)))
  | _ => false

/-- Lookbehind `(?<=[^\d\W]{2}-)|(?<=[^\d\W]-[^\d\W]-)` at a candidate
hyphen break; the argument is the reversed prefix of the munged text ending
at the position, so its head is the hyphen just consumed. -/
def hyphLookbehind : List Char → Bool
  | '-' :: x :: y :: rest =>
    (isLetter x && isLetter y) ||
      (isLetter x && y = '-' &&
        (match rest with | z :: _ => isLetter z | [] => false))
  | _ => false

/-- Lookahead `(?=-{2,}\w)`: an em-dash run (two or more hyphens) followed by
a word character.  The run must be taken whole, since a proper prefix of it
is followed by another hyphen, which is not a word character. -/
def emdashAhead : List Char → Bool
  | '-' :: '-' :: rest =>
    match rest.dropWhile (· = '-') with
    | c :: _ => isWordChar c
    | [] => false
  | _ => false

/-- Word-chunk break test at a position inside a word: end of text, a space
(the only whitespace left after munging), an eligible hyphen break, or an
em-dash run starting here after word material.  `before` is the reversed
prefix of the munged text, `rest` the remaining input. -/
def wordBreakHere (before rest : List Char) : Bool :=
  match rest with
  | [] => true
  | r :: _ =>
    r = ' ' || (hyphLookbehind before && hyphLookahead rest) ||
      ((match before with | p :: _ => isWordPunct p | [] => false) && emdashAhead rest)

/-- Consume the remainder of a word chunk (its first character was already
consumed by the caller); returns the consumed characters and the rest. -/
def takeWordAux (before : List Char) : List Char → List Char × List Char
  | [] => ([], [])
  | r :: rs =>
    if wordBreakHere before (r :: rs) then ([], r :: rs)
    else
      let p := takeWordAux (r :: before) rs
      (r :: p.1, p.2)

/-- The em-dash chunk alternative `(?<=[\w!"'&.,?])-{2,}(?=\w)` at a chunk
start. -/
def emdashChunkHere (before rest : List Char) : Bool :=
  (match before with | p :: _ => isWordPunct p | [] => false) && emdashAhead rest

theorem takeWordAux_rem_le (before : List Char) (l : List Char) :
    (takeWordAux before l).2.length ≤ l.length := by
  induction l generalizing before with
  | nil => simp [takeWordAux]
  | cons r rs ih =>
    simp only [takeWordAux]
    split
    · simp
    · simpa using Nat.le_succ_of_le (ih (r :: before))

/-- `wordsep_re` chunking of the munged text: whitespace runs, em-dash runs,
and word fragments, tiling the input. -/
def chunkAux (before rest : List Char) : List (List Char) :=
  match rest with
  | [] => []
  | c :: cs =>
    if c = ' ' then
      (c :: cs.takeWhile (· = ' ')) ::
        chunkAux ((c :: cs.takeWhile (· = ' ')).reverse ++ before) (cs.dropWhile (· = ' '))
    else if emdashChunkHere before (c :: cs) then
      (c :: cs.takeWhile (· = '-')) ::
        chunkAux ((c :: cs.takeWhile (· = '-')).reverse ++ before) (cs.dropWhile (· = '-'))
    else
      let p := takeWordAux (c :: before) cs
      (c :: p.1) :: chunkAux (p.1.reverse ++ (c :: before)) p.2
termination_by rest.length
decreasing_by
  · simpa using Nat.lt_succ_of_le (List.dropWhile_sublist _).length_le
  · simpa using Nat.lt_succ_of_le (List.dropWhile_sublist _).length_le
  · simpa using Nat.lt_succ_of_le (takeWordAux_rem_le _ _)

/-- `TextWrapper._split` applied to the munged text. -/
def splitChunks (text : String) : List (List Char) :=
  chunkAux [] (mungeWhitespace text)

/-- `chunk.strip() == ''`: the chunk is whitespace only. -/
def isWsChunk (c : List Char) : Bool := c.all pyIsSpace

/-- The inner greedy loop of `_wrap_chunks`: take chunks onto the current
line while the accumulated length stays within the width. -/
def fillLine (width : Nat) (curLen : Nat) :
    List (List Char) → List (List Char) × List (List Char)
  | [] => ([], [])
  | c :: cs =>
    if curLen + c.length ≤ width then
      let p := fillLine width (curLen + c.length) cs
      (c :: p.1, p.2)
    else ([], c :: cs)

/-- `_handle_long_word` with `break_long_words=False`: when the greedy fill
produced an empty line and the next chunk exceeds the width, place that
chunk alone on the line; otherwise leave everything as is. -/
def handleLong (width : Nat) :
    List (List Char) × List (List Char) → List (List Char) × List (List Char)
  | ([], c :: cs) => if width < c.length then ([c], cs) else ([], c :: cs)
  | p => p

/-- Drop a trailing whitespace chunk from a line (`drop_whitespace`). -/
def dropTrailingWs (ln : List (List Char)) : List (List Char) :=
  match ln.getLast? with
  | some lc => if isWsChunk lc then ln.dropLast else ln
  | none => ln

/-- Drop a leading whitespace chunk on continuation lines
(`drop_whitespace`, applied only once some line was already emitted). -/
def dropLeadingWs (linesNonempty : Bool) (chunks : List (List Char)) :
    List (List Char) :=
  match chunks with
  | c :: cs => if linesNonempty && isWsChunk c then cs else c :: cs
  | [] => []

/-- One iteration of the outer loop of `_wrap_chunks`: drop a leading
whitespace chunk on continuation lines, fill greedily, place an over-long
chunk alone on an empty line, and drop a trailing whitespace chunk.
Returns the line's chunks and the remaining chunks. -/
def mkLine (width : Nat) (linesNonempty : Bool) (chunks : List (List Char)) :
    List (List Char) × List (List Char) :=
  let q := handleLong width (fillLine width 0 (dropLeadingWs linesNonempty chunks))
  (dropTrailingWs q.1, q.2)

theorem fillLine_append (width curLen : Nat) (l : List (List Char)) :
    (fillLine width curLen l).1 ++ (fillLine width curLen l).2 = l := by
  induction l generalizing curLen with
  | nil => simp [fillLine]
  | cons c cs ih =>
    simp only [fillLine]
    split
    · simpa using ih (curLen + c.length)
    · simp

theorem fillLine_rest_le (width curLen : Nat) (l : List (List Char)) :
    (fillLine width curLen l).2.length ≤ l.length := by
  conv_rhs => rw [← fillLine_append width curLen l]
  simp

theorem handleLong_snd_le (width : Nat) (p : List (List Char) × List (List Char)) :
    (handleLong width p).2.length ≤ p.2.length := by
  rcases p with ⟨p1, p2⟩
  cases p1 with
  | cons a as => simp [handleLong]
  | nil =>
    cases p2 with
    | nil => simp [handleLong]
    | cons d ds =>
      simp only [handleLong]
      split <;> simp

theorem mkLine_rest_lt (width : Nat) (le₀ : Bool) (chunks : List (List Char))
    (h : chunks ≠ []) : (mkLine width le₀ chunks).2.length < chunks.length := by
  obtain ⟨c, cs, rfl⟩ := List.exists_cons_of_ne_nil h
  simp only [mkLine]
  by_cases hdrop : (le₀ && isWsChunk c) = true
  · have hch : dropLeadingWs le₀ (c :: cs) = cs := by simp [dropLeadingWs, hdrop]
    rw [hch]
    calc (handleLong width (fillLine width 0 cs)).2.length
        ≤ (fillLine width 0 cs).2.length := handleLong_snd_le width _
      _ ≤ cs.length := fillLine_rest_le width 0 cs
      _ < (c :: cs).length := by simp
  · have hch : dropLeadingWs le₀ (c :: cs) = c :: cs := by simp [dropLeadingWs, hdrop]
    rw [hch]
    by_cases hw : c.length ≤ width
    · have hf : fillLine width 0 (c :: cs) =
          (c :: (fillLine width c.length cs).1, (fillLine width c.length cs).2) := by
        simp [fillLine, hw]
      rw [hf]
      calc (handleLong width
            (c :: (fillLine width c.length cs).1, (fillLine width c.length cs).2)).2.length
          = (fillLine width c.length cs).2.length := by simp [handleLong]
        _ ≤ cs.length := fillLine_rest_le width c.length cs
        _ < (c :: cs).length := by simp
    · have hf : fillLine width 0 (c :: cs) = ([], c :: cs) := by
        simp [fillLine, hw]
      rw [hf]
      have hcw : width < c.length := Nat.lt_of_not_le hw
      simp [handleLong, hcw]

/-- The outer loop of `_wrap_chunks`: build lines until the chunks are
exhausted; iterations whose line comes out empty (pure whitespace) emit
nothing. -/
def wrapLoop (width : Nat) (linesNonempty : Bool) (chunks : List (List Char)) :
    List (List (List Char)) :=
  match h : chunks with
  | [] => []
  | _ :: _ =>
    let p := mkLine width linesNonempty chunks
    if p.1 = [] then wrapLoop width linesNonempty p.2
    else p.1 :: wrapLoop width true p.2
termination_by chunks.length
decreasing_by
  all_goals exact h ▸ mkLine_rest_lt width linesNonempty chunks (by simp [h])

/-- `textwrap.wrap(text, width, break_long_words=False)` at the level of
chunk lists: each line is the list of chunks it is joined from. -/
def wrap_chunk_lines (width : Nat) (text : String) : List (List (List Char)) :=
  wrapLoop width false (splitChunks text)

/-- Join one line's chunks into the emitted line string. -/
def lineString (ln : List (List Char)) : String := String.mk ln.flatten

/-- `textwrap.fill(text, width, break_long_words=False)`:
newline-join of the wrapped lines. -/
def textwrap_fill (width : Nat) (text : String) : String :=
  String.intercalate "\n" ((wrap_chunk_lines width text).map lineString)

/-- `wrap_text_for_margins`: `textwrap.fill(text, width=23,
break_long_words=False)`. -/
def wrap_text_for_margins (text : String) : String := textwrap_fill 23 text

/-- Python `str.split()` (no argument): whitespace-delimited words. -/
def splitWsAux : List Char → List (List Char)
  | [] => []
  | c :: cs =>
    if pyIsSpace c then splitWsAux cs
    else
      (c :: cs.takeWhile (fun d => !pyIsSpace d)) ::
        splitWsAux (cs.dropWhile (fun d => !pyIsSpace d))
termination_by l => l.length
decreasing_by
  · simp
  · simpa using Nat.lt_succ_of_le (List.dropWhile_sublist _).length_le

/-- The whitespace-delimited words of a string, as strings. -/
def pyWords (s : String) : List String := (splitWsAux s.data).map String.mk

/-- Length of the longest chunk. -/
def maxChunkLen (cs : List (List Char)) : Nat := (cs.map List.length).foldr max 0

/-! ## Helper lemmas -/

theorem firstTypeMatch_eq_none {fl : String} {ts : List String}
    (h : ∀ t ∈ ts, pyContains fl t = false) : firstTypeMatch fl ts = none := by
  induction ts with
  | nil => rfl
  | cons t ts ih =>
    have ht := h t (List.mem_cons_self t ts)
    simp [firstTypeMatch, ht]
    exact ih fun u hu => h u (List.mem_cons_of_mem t hu)

theorem firstTypeMatch_isSome {fl : String} {ts : List String}
    (h : ∃ t ∈ ts, pyContains fl t = true) : (firstTypeMatch fl ts).isSome = true := by
  induction ts with
  | nil => simp at h
  | cons t ts ih =>
    by_cases hc : pyContains fl t = true
    · simp [firstTypeMatch, hc]
    · simp [firstTypeMatch, hc]
      rcases h with ⟨u, hu, hcu⟩
      rcases List.mem_cons.mp hu with rfl | hu
      · exact absurd hcu hc
      · exact ih ⟨u, hu, hcu⟩

theorem findEligible_some {vt : String} :
    ∀ {rows : List CaptionRow} {i0 i : Nat} {r : CaptionRow},
      findEligible vt rows i0 = some (i, r) →
      i0 ≤ i ∧ rows[i - i0]? = some r ∧ rowEligible vt r = true ∧
        ∀ j, j < i - i0 → ∀ q, rows[j]? = some q → rowEligible vt q = false := by
  intro rows
  induction rows with
  | nil => intro i0 i r h; simp [findEligible] at h
  | cons r0 rs ih =>
    intro i0 i r h
    by_cases he : rowEligible vt r0 = true
    · simp [findEligible, he] at h
      obtain ⟨rfl, rfl⟩ := h
      refine ⟨Nat.le_refl _, ?_, he, ?_⟩
      · simp
      · intro j hj; omega
    · simp [findEligible, he] at h
      obtain ⟨hle, hget, helig, hfirst⟩ := ih h
      have hii : i0 ≤ i := Nat.le_of_succ_le hle
      have hsub : i - i0 = (i - (i0 + 1)) + 1 := by omega
      refine ⟨hii, ?_, helig, ?_⟩
      · rw [hsub]; simpa using hget
      · intro j hj q hq
        cases j with
        | zero =>
          simp at hq
          simpa [← hq] using (Bool.eq_false_iff.mpr he)
        | succ j =>
          have : j < i - (i0 + 1) := by omega
          exact hfirst j this q (by simpa using hq)

theorem findEligible_eq_none {vt : String} :
    ∀ {rows : List CaptionRow} {i0 : Nat},
      (∀ (j : Nat) (q : CaptionRow), rows[j]? = some q → rowEligible vt q = false) →
      findEligible vt rows i0 = none := by
  intro rows
  induction rows with
  | nil => intro i0 _; rfl
  | cons r0 rs ih =>
    intro i0 h
    have h0 : rowEligible vt r0 = false := h 0 r0 (by simp)
    simp [findEligible, h0]
    exact ih fun j q hq => h (j + 1) q (by simpa using hq)

theorem findEligible_isSome {vt : String} :
    ∀ {rows : List CaptionRow} {i0 : Nat},
      (∃ (j : Nat) (q : CaptionRow), rows[j]? = some q ∧ rowEligible vt q = true) →
      ∃ i r, findEligible vt rows i0 = some (i, r) := by
  intro rows
  induction rows with
  | nil => intro i0 h; obtain ⟨j, q, hq, _⟩ := h; simp at hq
  | cons r0 rs ih =>
    intro i0 h
    by_cases he : rowEligible vt r0 = true
    · exact ⟨i0, r0, by simp [findEligible, he]⟩
    · obtain ⟨j, q, hq, helig⟩ := h
      cases j with
      | zero =>
        simp at hq
        rw [hq] at he
        exact absurd helig he
      | succ j =>
        obtain ⟨i, r, hir⟩ := @ih (i0 + 1) ⟨j, q, by simpa using hq, helig⟩
        exact ⟨i, r, by simp [findEligible, he, hir]⟩

theorem setUsed_get?_self (rows : List CaptionRow) (i : Nat) (v : String) :
    (setUsed rows i v)[i]? = rows[i]?.map fun r => { r with used := v } := by
  induction rows generalizing i with
  | nil => simp [setUsed]
  | cons r rs ih =>
    cases i with
    | zero => simp [setUsed]
    | succ i => simpa [setUsed] using ih i

theorem setUsed_get?_ne (rows : List CaptionRow) (i : Nat) (v : String)
    (j : Nat) (h : j ≠ i) : (setUsed rows i v)[j]? = rows[j]? := by
  induction rows generalizing i j with
  | nil => simp [setUsed]
  | cons r rs ih =>
    cases i with
    | zero =>
      cases j with
      | zero => exact absurd rfl h
      | succ j => simp [setUsed]
    | succ i =>
      cases j with
      | zero => simp [setUsed]
      | succ j => simpa [setUsed] using ih i j (fun hc => h (by rw [hc]))

theorem select_and_consume_of_found {rows : List CaptionRow} {vt : String}
    {i : Nat} {r : CaptionRow} (h : findEligible vt rows 0 = some (i, r)) :
    select_and_consume rows vt = (some (pyStrip r.text), setUsed rows i "TRUE") := by
  simp [select_and_consume, find_next_overlay_text, h, applyCellWrite]

theorem select_and_consume_of_none {rows : List CaptionRow} {vt : String}
    (h : findEligible vt rows 0 = none) :
    select_and_consume rows vt = (none, rows) := by
  simp [select_and_consume, find_next_overlay_text, h]

theorem rowEligible_of_used_true {vt : String} {q : CaptionRow}
    (hq : q.used = "TRUE") : rowEligible vt q = false := by
  have : (pyUpper (pyStrip "TRUE") == "FALSE") = false := by decide
  simp [rowEligible, hq, this]

theorem select_and_consume_preserves_true {rows : List CaptionRow} {vt : String}
    {i : Nat} {r : CaptionRow} (h : rows[i]? = some r) (hu : r.used = "TRUE") :
    ∃ q, (select_and_consume rows vt).2[i]? = some q ∧ q.used = "TRUE" := by
  cases hf : findEligible vt rows 0 with
  | none => exact ⟨r, by simp [select_and_consume_of_none hf, h], hu⟩
  | some p =>
    obtain ⟨j, s⟩ := p
    rw [select_and_consume_of_found hf]
    by_cases hij : i = j
    · subst hij
      refine ⟨{ r with used := "TRUE" }, ?_, rfl⟩
      simp [setUsed_get?_self, h]
    · exact ⟨r, by rw [setUsed_get?_ne rows j "TRUE" i hij]; exact h, hu⟩

theorem runSelections_preserves_true :
    ∀ (vts : List String) {rows : List CaptionRow} {i : Nat} {r : CaptionRow},
      rows[i]? = some r → r.used = "TRUE" →
      ∃ q, (runSelections rows vts)[i]? = some q ∧ q.used = "TRUE" := by
  intro vts
  induction vts with
  | nil => intro rows i r h hu; exact ⟨r, h, hu⟩
  | cons vt vts ih =>
    intro rows i r h hu
    obtain ⟨q, hq, hqu⟩ := @select_and_consume_preserves_true rows vt i r h hu
    exact ih hq hqu

/-! ## Claim theorems -/

/-- C1: the trim planner is the piecewise function: for `d > 0.75` it returns
`d - 0.75` (with `start_trim = 0.5` and `end_trim = 0.25`), and for
`d ≤ 0.75` (including `d = 0`) it returns `max(0.1, d * 0.8)`. -/
theorem trim_plan_piecewise (d : ℚ) :
    ((0.75 : ℚ) < d → calculate_trimmed_duration d = d - 0.75) ∧
    (d ≤ (0.75 : ℚ) → calculate_trimmed_duration d = max (0.1 : ℚ) (d * 0.8)) := by
  have hs : (start_trim : ℚ) = 1/2 := rfl
  have he : (end_trim : ℚ) = 1/4 := rfl
  constructor <;> intro h <;> simp only [calculate_trimmed_duration, hs, he]
  · rw [if_neg (by push_neg; nlinarith [h])]
    ring
  · rw [if_pos (by nlinarith [h])]
    norm_num

/-- Witness for C1 at `d = 2` and `d = 0`. -/
theorem trim_plan_piecewise_witness :
    ((0.75 : ℚ) < 2 ∧ calculate_trimmed_duration 2 = 2 - 0.75) ∧
    ((0 : ℚ) ≤ (0.75 : ℚ) ∧ calculate_trimmed_duration 0 = max (0.1 : ℚ) (0 * 0.8)) :=
  ⟨⟨by norm_num, (trim_plan_piecewise 2).1 (by norm_num)⟩,
   ⟨by norm_num, (trim_plan_piecewise 0).2 (by norm_num)⟩⟩

/-- C7: type inference over the fixed vocabulary: `"my_romantic_clip.mp4"`
infers `Romantic`, `"clip.mp4"` infers nothing, and a filename containing
two or more keywords yields exactly one result (the inference is a function
of the filename and the fixed vocabulary ordering, hence deterministic). -/
theorem extract_type_spec :
    extract_type_from_filename "my_romantic_clip.mp4" = some "Romantic" ∧
    extract_type_from_filename "clip.mp4" = none ∧
    ∀ f : String,
      2 ≤ (valid_types.filter fun t => pyContains (pyLower f) t).length →
      ∃ t2, extract_type_from_filename f = some t2 ∧
        ∀ t3, extract_type_from_filename f = some t3 → t3 = t2 := by
  refine ⟨by decide, by decide, ?_⟩
  intro f hf
  have hex : ∃ t ∈ valid_types, pyContains (pyLower f) t = true := by
    have hne : (valid_types.filter fun t => pyContains (pyLower f) t) ≠ [] := by
      intro hnil
      rw [hnil] at hf
      simp at hf
    obtain ⟨t, ht⟩ := List.exists_mem_of_ne_nil _ hne
    have := List.mem_filter.mp ht
    exact ⟨t, this.1, this.2⟩
  have hsome := firstTypeMatch_isSome hex
  obtain ⟨t2, ht2⟩ := Option.isSome_iff_exists.mp hsome
  refine ⟨t2, ht2, ?_⟩
  intro t3 ht3
  have : some t3 = some t2 := by rw [← ht3, ← ht2]; rfl
  exact Option.some_injective _ this

/-- Witness for C7 at a filename containing both `sad` and `crying`. -/
theorem extract_type_spec_witness :
    2 ≤ (valid_types.filter fun t => pyContains (pyLower "sad_crying.mp4") t).length ∧
    ∃ t2, extract_type_from_filename "sad_crying.mp4" = some t2 ∧
      ∀ t3, extract_type_from_filename "sad_crying.mp4" = some t3 → t3 = t2 :=
  ⟨by decide, extract_type_spec.2.2 "sad_crying.mp4" (by decide)⟩

/-- C2: the selector scans the rows in order and selects the first row whose
stripped type matches the requested type case-insensitively and whose
stripped, uppercased used flag is exactly `FALSE`; on a match it issues
exactly the one cell write `update_cell(i + 2, 1, 'TRUE')` and returns that
row's stripped overlay text; and whenever some row is eligible, a row is
selected. -/
theorem find_next_overlay_text_spec (rows : List CaptionRow) (vt : String) :
    (∀ i r, findEligible vt rows 0 = some (i, r) →
      rows[i]? = some r ∧ rowEligible vt r = true ∧
        (∀ j, j < i → ∀ q, rows[j]? = some q → rowEligible vt q = false) ∧
        find_next_overlay_text rows vt =
          (some (pyStrip r.text), [⟨i + 2, 1, "TRUE"⟩])) ∧
    ((∃ (j : Nat) (q : CaptionRow), rows[j]? = some q ∧ rowEligible vt q = true) →
      ∃ i r, findEligible vt rows 0 = some (i, r)) := by
  constructor
  · intro i r h
    obtain ⟨-, hget, helig, hfirst⟩ := findEligible_some h
    simp only [Nat.sub_zero] at hget hfirst
    exact ⟨hget, helig, hfirst, by simp [find_next_overlay_text, h]⟩
  · exact findEligible_isSome

/-- Witness for C2: two rows of type `sad`, the first already used; the
selector skips it, picks the second (position 1), writes `TRUE` to sheet
cell (3, 1) and returns its stripped text. -/
theorem find_next_overlay_text_spec_witness :
    findEligible "Sad" [⟨"TRUE", "", "sad", "a"⟩, ⟨"FALSE", "", "Sad", " hi "⟩] 0 =
      some (1, ⟨"FALSE", "", "Sad", " hi "⟩) ∧
    find_next_overlay_text [⟨"TRUE", "", "sad", "a"⟩, ⟨"FALSE", "", "Sad", " hi "⟩] "Sad" =
      (some "hi", [⟨3, 1, "TRUE"⟩]) := by
  refine ⟨by decide, ?_⟩
  have h := (find_next_overlay_text_spec
    [⟨"TRUE", "", "sad", "a"⟩, ⟨"FALSE", "", "Sad", " hi "⟩] "Sad").1 1
    ⟨"FALSE", "", "Sad", " hi "⟩ (by decide)
  have hstrip : pyStrip " hi " = "hi" := by decide
  simpa [hstrip] using h.2.2.2

/-- C9: a row whose used flag does not strip-and-uppercase to exactly
`FALSE` (for example an empty cell, `no`, or `0`) is never selected, and the
selector never writes to its sheet row. -/
theorem nonfalse_used_flag_never_selected (rows : List CaptionRow) (vt : String)
    (i : Nat) (r : CaptionRow) (hget : rows[i]? = some r)
    (hused : pyUpper (pyStrip r.used) ≠ "FALSE") :
    (∀ q, findEligible vt rows 0 ≠ some (i, q)) ∧
    ∀ w ∈ (find_next_overlay_text rows vt).2, w.row ≠ i + 2 := by
  have hkey : ∀ q, findEligible vt rows 0 = some (i, q) → False := by
    intro q h
    obtain ⟨-, hget2, helig, -⟩ := findEligible_some h
    simp only [Nat.sub_zero] at hget2
    rw [hget] at hget2
    obtain rfl : r = q := by injection hget2
    have : (pyUpper (pyStrip r.used) == "FALSE") = true := by
      have := helig
      simp [rowEligible] at this
      exact beq_iff_eq.mpr this.2
    exact hused (beq_iff_eq.mp this)
  refine ⟨fun q h => absurd h (fun hh => hkey q hh), ?_⟩
  intro w hw
  cases hf : findEligible vt rows 0 with
  | none => simp [find_next_overlay_text, hf] at hw
  | some p =>
    obtain ⟨j, s⟩ := p
    simp [find_next_overlay_text, hf] at hw
    subst hw
    simp only [ne_eq, Nat.add_right_cancel_iff]
    intro hji
    subst hji
    exact hkey s hf

/-- C3: caption selection is idempotent-exclusive within one sequential
process: once a selector call consumes row `i`, no later selector call for
the same type selects row `i` again, whatever selections happen in
between. -/
theorem consumed_row_never_reselected (rows : List CaptionRow) (vt : String)
    (i : Nat) (r : CaptionRow) (h : findEligible vt rows 0 = some (i, r))
    (vts : List String) (i2 : Nat) (r2 : CaptionRow)
    (h2 : findEligible vt (runSelections (select_and_consume rows vt).2 vts) 0 =
      some (i2, r2)) :
    i2 ≠ i := by
  intro hii
  subst hii
  obtain ⟨-, hget, -, -⟩ := findEligible_some h
  simp only [Nat.sub_zero] at hget
  rw [select_and_consume_of_found h] at h2
  have hst : (setUsed rows i2 "TRUE")[i2]? = some { r with used := "TRUE" } := by
    rw [setUsed_get?_self, hget]
    rfl
  obtain ⟨q, hq, hqu⟩ := runSelections_preserves_true vts hst rfl
  obtain ⟨-, hget2, helig2, -⟩ := findEligible_some h2
  simp only [Nat.sub_zero] at hget2
  rw [hq] at hget2
  obtain rfl : q = r2 := by injection hget2
  rw [rowEligible_of_used_true hqu] at helig2
  exact Bool.false_ne_true helig2

/-- Witness for C3: two unused `sad` rows; the first call consumes row 0,
the immediately following call selects row 1, not row 0. -/
theorem consumed_row_never_reselected_witness :
    findEligible "Sad" [⟨"FALSE", "", "sad", "a"⟩, ⟨"FALSE", "", "sad", "b"⟩] 0 =
      some (0, ⟨"FALSE", "", "sad", "a"⟩) ∧
    findEligible "Sad"
      (runSelections
        (select_and_consume [⟨"FALSE", "", "sad", "a"⟩, ⟨"FALSE", "", "sad", "b"⟩]
          "Sad").2 []) 0 = some (1, ⟨"FALSE", "", "sad", "b"⟩) ∧
    (1 : Nat) ≠ 0 :=
  ⟨by decide, by decide,
    consumed_row_never_reselected
      [⟨"FALSE", "", "sad", "a"⟩, ⟨"FALSE", "", "sad", "b"⟩] "Sad" 0
      ⟨"FALSE", "", "sad", "a"⟩ (by decide) [] 1 ⟨"FALSE", "", "sad", "b"⟩ (by decide)⟩

/-- C4: when no unused row matches the inferred type, the selector returns
`None` without issuing any cell write, the sheet state is unchanged, the
pipeline renders nothing and reports failure, and the batch loop records
the video as failed. -/
theorem no_caption_no_mutation (rows : List CaptionRow) (v vt : String)
    (env : VideoEnv)
    (ht : extract_type_from_filename (pathStem v) = some vt)
    (h : ∀ (j : Nat) (q : CaptionRow), rows[j]? = some q → rowEligible vt q = false) :
    find_next_overlay_text rows vt = (none, []) ∧
    process_single_video rows v env = (false, rows, []) ∧
    runBatch (fun _ => env) rows [v] = (([], [v]), rows) := by
  have hfe : findEligible vt rows 0 = none := findEligible_eq_none h
  have h1 : find_next_overlay_text rows vt = (none, []) := by
    simp [find_next_overlay_text, hfe]
  have h2 : process_single_video rows v env = (false, rows, []) := by
    simp [process_single_video, ht, h1]
  exact ⟨h1, h2, by simp [runBatch, h2]⟩

/-- Witness for C4: a sheet whose only `sad` row is already used, and a
`sad`-typed video. -/
theorem no_caption_no_mutation_witness :
    extract_type_from_filename (pathStem "sad_clip.mp4") = some "Sad" ∧
    (find_next_overlay_text [⟨"TRUE", "", "sad", "x"⟩] "Sad" = (none, []) ∧
      process_single_video [⟨"TRUE", "", "sad", "x"⟩] "sad_clip.mp4"
        ⟨0, fun _ => RunResult.exited 0⟩ = (false, [⟨"TRUE", "", "sad", "x"⟩], []) ∧
      runBatch (fun _ => (⟨0, fun _ => RunResult.exited 0⟩ : VideoEnv))
        [⟨"TRUE", "", "sad", "x"⟩] ["sad_clip.mp4"] =
        (([], ["sad_clip.mp4"]), [⟨"TRUE", "", "sad", "x"⟩])) :=
  ⟨by decide,
    no_caption_no_mutation [⟨"TRUE", "", "sad", "x"⟩] "sad_clip.mp4" "Sad"
      ⟨0, fun _ => RunResult.exited 0⟩ (by decide)
      (by
        intro j q hq
        match j with
        | 0 =>
          simp at hq
          rw [← hq]
          decide
        | Nat.succ n => simp at hq)⟩

/-- C10: the caption row is consumed (its used flag written `TRUE`) before
the probe and before any render tier runs, and when all three tiers exit
non-zero the video is reported failed while the row stays marked used: the
trace is exactly one cell write, then the probe, then the three renders,
with no output written and no reverting write. -/
theorem render_failure_keeps_row_used (rows : List CaptionRow) (v vt : String)
    (env : VideoEnv) (i : Nat) (r : CaptionRow)
    (ht : extract_type_from_filename (pathStem v) = some vt)
    (hf : findEligible vt rows 0 = some (i, r))
    (htext : ¬(pyStrip r.text = ""))
    (c1 c2 c3 : Int)
    (h1 : env.res .full = .exited c1) (h1n : ¬(c1 = 0))
    (h2 : env.res .fb = .exited c2) (h2n : ¬(c2 = 0))
    (h3 : env.res .noText = .exited c3) (h3n : ¬(c3 = 0)) :
    process_single_video rows v env =
      (false, setUsed rows i "TRUE",
        [Ev.cellWrite ⟨i + 2, 1, "TRUE"⟩, Ev.probe v,
         Ev.render .full v (some (pyStrip r.text)) (calculate_trimmed_duration env.duration),
         Ev.render .fb v (some (pyStrip r.text)) (calculate_trimmed_duration env.duration),
         Ev.render .noText v none (calculate_trimmed_duration env.duration)]) ∧
    (setUsed rows i "TRUE")[i]? = some { r with used := "TRUE" } := by
  obtain ⟨-, hget, -, -⟩ := findEligible_some hf
  simp only [Nat.sub_zero] at hget
  constructor
  · simp only [process_single_video, ht, find_next_overlay_text, hf]
    rw [if_neg htext]
    simp [applyCellWrite, edit_video_with_text, edit_video_fallback,
      edit_video_no_text, h1, h1n, h2, h2n, h3, h3n]
  · rw [setUsed_get?_self, hget]
    rfl

/-- Witness for C10: one unused `sad` row, a `sad` video, and ffmpeg exiting
1 at every tier. -/
theorem render_failure_keeps_row_used_witness :
    findEligible "Sad" [⟨"FALSE", "", "sad", "hello"⟩] 0 =
      some (0, ⟨"FALSE", "", "sad", "hello"⟩) ∧
    (process_single_video [⟨"FALSE", "", "sad", "hello"⟩] "sad_clip.mp4"
        ⟨10, fun _ => RunResult.exited 1⟩ =
      (false, setUsed [⟨"FALSE", "", "sad", "hello"⟩] 0 "TRUE",
        [Ev.cellWrite ⟨0 + 2, 1, "TRUE"⟩, Ev.probe "sad_clip.mp4",
         Ev.render .full "sad_clip.mp4" (some (pyStrip "hello"))
           (calculate_trimmed_duration (10 : ℚ)),
         Ev.render .fb "sad_clip.mp4" (some (pyStrip "hello"))
           (calculate_trimmed_duration (10 : ℚ)),
         Ev.render .noText "sad_clip.mp4" none
           (calculate_trimmed_duration (10 : ℚ))]) ∧
      (setUsed [⟨"FALSE", "", "sad", "hello"⟩] 0 "TRUE")[0]? =
        some ⟨"TRUE", "", "sad", "hello"⟩) :=
  ⟨by decide,
    render_failure_keeps_row_used [⟨"FALSE", "", "sad", "hello"⟩] "sad_clip.mp4"
      "Sad" ⟨10, fun _ => RunResult.exited 1⟩ 0 ⟨"FALSE", "", "sad", "hello"⟩
      (by decide) (by decide) (by decide) 1 1 1 rfl (by decide) rfl (by decide)
      rfl (by decide)⟩

theorem edit_video_no_text_mem_render (v : String) (d : ℚ) (rr : RunResult) :
    Ev.render .noText v none d ∈ (edit_video_no_text v d rr).2 := by
  cases rr with
  | exited c => by_cases hc : c = 0 <;> simp [edit_video_no_text, hc]
  | raised => simp [edit_video_no_text]

theorem edit_video_no_text_mem (v : String) (d : ℚ) (rr : RunResult) {e : Ev}
    (he : e ∈ (edit_video_no_text v d rr).2) :
    e = Ev.render .noText v none d ∨ e = Ev.wroteOutput (output_name v) := by
  cases rr with
  | exited c =>
    by_cases hc : c = 0 <;> simp [edit_video_no_text, hc] at he <;> tauto
  | raised =>
    simp [edit_video_no_text] at he
    tauto

theorem edit_video_no_text_countP (v : String) (d : ℚ) (rr : RunResult)
    (tier : Tier) :
    ((edit_video_no_text v d rr).2.countP (isRenderOf tier)) =
      if tier = Tier.noText then 1 else 0 := by
  cases rr with
  | exited c =>
    by_cases hc : c = 0 <;> cases tier <;>
      simp [edit_video_no_text, hc, isRenderOf, List.countP_cons, List.countP_nil]
  | raised =>
    cases tier <;>
      simp [edit_video_no_text, isRenderOf, List.countP_cons, List.countP_nil]

/-- C6: the render invoker is a three-tier cascade entered top-down and
never retried upward: the fallback tier runs iff the full render exits
non-zero, with the same path, overlay text and trimmed duration (no caption
write happens inside the cascade); the no-text tier runs iff the fallback
tier also exits non-zero; and each tier is invoked at most once. -/
theorem render_cascade_spec (v t : String) (d : ℚ) (res : Tier → RunResult) :
    ((Ev.render .fb v (some t) d ∈ (edit_video_with_text v t d res).2) ↔
      ∃ c, res .full = .exited c ∧ ¬(c = 0)) ∧
    ((Ev.render .noText v none d ∈ (edit_video_with_text v t d res).2) ↔
      ((∃ c, res .full = .exited c ∧ ¬(c = 0)) ∧
        ∃ c, res .fb = .exited c ∧ ¬(c = 0))) ∧
    (∀ (tier : Tier) (p : String) (ov : Option String) (dd : ℚ),
      Ev.render tier p ov dd ∈ (edit_video_with_text v t d res).2 →
      p = v ∧ dd = d ∧ ov = (if tier = Tier.noText then none else some t)) ∧
    (∀ w : CellWrite, Ev.cellWrite w ∉ (edit_video_with_text v t d res).2) ∧
    (∀ tier : Tier,
      ((edit_video_with_text v t d res).2.countP (isRenderOf tier)) ≤ 1) := by
  cases hfull : res .full with
  | raised =>
    have ht : (edit_video_with_text v t d res).2 = [Ev.render .full v (some t) d] := by
      simp [edit_video_with_text, hfull]
    rw [ht]
    refine ⟨by simp [hfull], by simp [hfull], ?_, by simp, ?_⟩
    · intro tier p ov dd h
      simp at h
      obtain ⟨rfl, rfl, rfl, rfl⟩ := h
      simp
    · intro tier
      cases tier <;> simp [isRenderOf, List.countP_cons, List.countP_nil]
  | exited c1 =>
    by_cases hc1 : c1 = 0
    · subst hc1
      have ht : (edit_video_with_text v t d res).2 =
          [Ev.render .full v (some t) d, Ev.wroteOutput (output_name v)] := by
        simp [edit_video_with_text, hfull]
      rw [ht]
      refine ⟨by simp [hfull], by simp [hfull], ?_, by simp, ?_⟩
      · intro tier p ov dd h
        simp at h
        obtain ⟨rfl, rfl, rfl, rfl⟩ := h
        simp
      · intro tier
        cases tier <;> simp [isRenderOf, List.countP_cons, List.countP_nil]
    · have htr : (edit_video_with_text v t d res).2 =
          Ev.render .full v (some t) d :: (edit_video_fallback v t d res).2 := by
        simp [edit_video_with_text, hfull, hc1]
      cases hfb : res .fb with
      | raised =>
        have ht2 : (edit_video_fallback v t d res).2 =
            [Ev.render .fb v (some t) d] := by
          simp [edit_video_fallback, hfb]
        rw [htr, ht2]
        refine ⟨by simp [hfull, hc1], by simp [hfull, hfb, hc1], ?_, by simp, ?_⟩
        · intro tier p ov dd h
          simp at h
          rcases h with ⟨rfl, rfl, rfl, rfl⟩ | ⟨rfl, rfl, rfl, rfl⟩ <;> simp
        · intro tier
          cases tier <;> simp [isRenderOf, List.countP_cons, List.countP_nil]
      | exited c2 =>
        by_cases hc2 : c2 = 0
        · subst hc2
          have ht2 : (edit_video_fallback v t d res).2 =
              [Ev.render .fb v (some t) d, Ev.wroteOutput (output_name v)] := by
            simp [edit_video_fallback, hfb]
          rw [htr, ht2]
          refine ⟨by simp [hfull, hc1], by simp [hfull, hfb, hc1], ?_, by simp, ?_⟩
          · intro tier p ov dd h
            simp at h
            rcases h with ⟨rfl, rfl, rfl, rfl⟩ | ⟨rfl, rfl, rfl, rfl⟩ <;> simp
          · intro tier
            cases tier <;> simp [isRenderOf, List.countP_cons, List.countP_nil]
        · have ht2 : (edit_video_fallback v t d res).2 =
              Ev.render .fb v (some t) d :: (edit_video_no_text v d (res .noText)).2 := by
            simp [edit_video_fallback, hfb, hc2]
          rw [htr, ht2]
          have hm := edit_video_no_text_mem_render v d (res .noText)
          refine ⟨by simp [hfull, hc1], ?_, ?_, ?_, ?_⟩
          · constructor
            · intro _
              exact ⟨⟨c1, rfl, hc1⟩, c2, rfl, hc2⟩
            · intro _
              simp [hm]
          · intro tier p ov dd h
            simp at h
            rcases h with ⟨rfl, rfl, rfl, rfl⟩ | ⟨rfl, rfl, rfl, rfl⟩ | hmem
            · simp
            · simp
            · rcases edit_video_no_text_mem v d (res .noText) hmem with he | he
              · injection he with e1 e2 e3 e4
                subst e1
                subst e2
                subst e3
                subst e4
                simp
              · exact absurd he (by simp)
          · intro w hw
            simp at hw
            rcases edit_video_no_text_mem v d (res .noText) hw with he | he <;>
              simp at he
          · intro tier
            rw [List.countP_cons, List.countP_cons, edit_video_no_text_countP]
            cases tier <;> simp [isRenderOf]

/-- Witness for C6: full tier exits 1, fallback exits 0 — the fallback tier
is invoked with the same arguments. -/
theorem render_cascade_spec_witness :
    Ev.render .fb "c.mp4" (some "hi") 1 ∈
      (edit_video_with_text "c.mp4" "hi" 1
        (fun tier => match tier with
          | Tier.full => RunResult.exited 1
          | Tier.fb => RunResult.exited 0
          | Tier.noText => RunResult.exited 0)).2 :=
  (render_cascade_spec "c.mp4" "hi" 1 _).1.mpr ⟨1, rfl, by decide⟩

theorem rfindChar_eq_none {c : Char} :
    ∀ {l : List Char}, (∀ x ∈ l, x ≠ c) → rfindChar c l = none := by
  intro l
  induction l with
  | nil => intro _; rfl
  | cons x xs ih =>
    intro h
    have hx : x ≠ c := h x (by simp)
    simp only [rfindChar]
    rw [ih fun y hy => h y (by simp [hy])]
    simp [hx]

theorem rfindChar_append_sep {c : Char} (l1 l2 : List Char)
    (h : ∀ x ∈ l2, x ≠ c) : rfindChar c (l1 ++ c :: l2) = some l1.length := by
  induction l1 with
  | nil =>
    simp only [List.nil_append, rfindChar]
    rw [rfindChar_eq_none h]
    simp
  | cons x xs ih =>
    simp only [List.cons_append, rfindChar, List.append_eq]
    rw [ih]
    simp

/-- C8 counterexample: for the input `crying_clip.avi` the output is named
`crying_clip_edited.mp4`, not `crying_clip_edited.avi` — the render tiers
hardcode the `.mp4` extension instead of preserving the input's. -/
theorem output_name_counterexample :
    pathStem "crying_clip.avi" = "crying_clip" ∧
    output_name "crying_clip.avi" = "crying_clip_edited.mp4" ∧
    ¬(output_name "crying_clip.avi" = "crying_clip" ++ "_edited." ++ "avi") := by
  refine ⟨by decide, by decide, by decide⟩

/-- C8 amended: for every successfully processed video with stem `S` and a
(nonempty, dot-free) extension, the output file is named `S ++
"_edited.mp4"` — the stem is preserved but the extension is always `mp4`,
whatever the input extension was. -/
theorem output_name_spec (stem ext : String) (h1 : ¬(stem = "")) (h2 : ¬(ext = ""))
    (h3 : ∀ ch ∈ ext.data, ch ≠ '.') :
    output_name (stem ++ "." ++ ext) = stem ++ "_edited.mp4" := by
  have hdata : (stem ++ "." ++ ext).data = stem.data ++ '.' :: ext.data := by
    have h0 : (stem ++ "." ++ ext).data = (stem.data ++ ['.']) ++ ext.data := rfl
    rw [h0, List.append_assoc]
    rfl
  suffices hs : pathStem (stem ++ "." ++ ext) = stem by
    rw [output_name, hs]
  have hstem : stem.data ≠ [] := by
    rcases stem with ⟨l⟩
    cases l with
    | nil => exact absurd rfl h1
    | cons a as => simp
  have hext : ext.data ≠ [] := by
    rcases ext with ⟨l⟩
    cases l with
    | nil => exact absurd rfl h2
    | cons a as => simp
  have hfind : rfindChar '.' (stem ++ "." ++ ext).data = some stem.data.length := by
    rw [hdata]
    exact rfindChar_append_sep stem.data ext.data h3
  have hcond : 0 < stem.data.length ∧
      stem.data.length < (stem ++ "." ++ ext).data.length - 1 := by
    constructor
    · exact List.length_pos.mpr hstem
    · have hpos : 0 < ext.data.length := List.length_pos.mpr hext
      rw [hdata]
      simp only [List.length_append, List.length_cons]
      omega
  have hdot : ¬(stem ++ "." ++ ext = ".") := by
    intro hh
    have hlen : (stem ++ "." ++ ext).data.length = ("." : String).data.length := by
      rw [hh]
    rw [hdata] at hlen
    simp at hlen
    have h0 : stem.data.length = stem.length := rfl
    have h1 : 0 < stem.data.length := List.length_pos.mpr hstem
    omega
  rw [pathStem, if_neg hdot, hfind]
  split
  next x i hi =>
    obtain rfl : stem.data.length = i := by injection hi
    rw [if_pos hcond, hdata, List.take_left]
  next x hi => exact absurd hi (by simp)

/-- Witness for C8's amended claim at stem `crying_clip`, extension `avi`. -/
theorem output_name_spec_witness :
    output_name ("crying_clip" ++ "." ++ "avi") = "crying_clip" ++ "_edited.mp4" :=
  output_name_spec "crying_clip" "avi" (by decide) (by decide) (by decide)

theorem le_maxChunkLen {c : List Char} {cs : List (List Char)} (h : c ∈ cs) :
    c.length ≤ maxChunkLen cs := by
  induction cs with
  | nil => simp at h
  | cons d ds ih =>
    rcases List.mem_cons.mp h with rfl | h
    · exact le_max_left _ _
    · exact le_trans (ih h) (le_max_right _ _)

theorem maxChunkLen_append_right (pre rest : List (List Char)) :
    maxChunkLen rest ≤ maxChunkLen (pre ++ rest) := by
  induction pre with
  | nil => exact Nat.le_refl _
  | cons a as ih => exact le_trans ih (le_max_right _ _)

theorem fillLine_sum_le (width : Nat) :
    ∀ (l : List (List Char)) (curLen : Nat),
      (fillLine width curLen l).1 = [] ∨
        curLen + (((fillLine width curLen l).1).map List.length).sum ≤ width := by
  intro l
  induction l with
  | nil => intro curLen; left; rfl
  | cons c cs ih =>
    intro curLen
    by_cases hfit : curLen + c.length ≤ width
    · right
      simp only [fillLine, if_pos hfit]
      rcases ih (curLen + c.length) with h | h
      · simp [h, hfit]
      · simp only [List.map_cons, List.sum_cons]
        omega
    · left
      simp [fillLine, hfit]

theorem handleLong_append_eq (width : Nat) (p : List (List Char) × List (List Char)) :
    (handleLong width p).1 ++ (handleLong width p).2 = p.1 ++ p.2 := by
  rcases p with ⟨p1, p2⟩
  cases p1 with
  | cons a as => simp [handleLong]
  | nil =>
    cases p2 with
    | nil => simp [handleLong]
    | cons d ds =>
      simp only [handleLong]
      split <;> simp

theorem dropTrailingWs_sublist (ln : List (List Char)) :
    (dropTrailingWs ln).Sublist ln := by
  cases hlast : ln.getLast? with
  | none => simp [dropTrailingWs, hlast]
  | some lc =>
    by_cases hws : isWsChunk lc = true
    · simpa [dropTrailingWs, hlast, hws] using List.dropLast_sublist ln
    · simp [dropTrailingWs, hlast, hws]

theorem dropLeadingWs_suffix (le₀ : Bool) (chunks : List (List Char)) :
    ∃ pre0, chunks = pre0 ++ dropLeadingWs le₀ chunks := by
  cases chunks with
  | nil => exact ⟨[], rfl⟩
  | cons c cs =>
    by_cases h : (le₀ && isWsChunk c) = true
    · exact ⟨[c], by simp [dropLeadingWs, h]⟩
    · exact ⟨[], by simp [dropLeadingWs, h]⟩

theorem mkLine_decomp (width : Nat) (le₀ : Bool) (chunks : List (List Char)) :
    ∃ pre, chunks = pre ++ (mkLine width le₀ chunks).2 ∧
      ((mkLine width le₀ chunks).1).Sublist pre := by
  obtain ⟨pre0, hpre0⟩ := dropLeadingWs_suffix le₀ chunks
  rcases hp : fillLine width 0 (dropLeadingWs le₀ chunks) with ⟨p1, p2⟩
  have happ : p1 ++ p2 = dropLeadingWs le₀ chunks := by
    have := fillLine_append width 0 (dropLeadingWs le₀ chunks)
    rw [hp] at this
    exact this
  have hq : (handleLong width (p1, p2)).1 ++ (handleLong width (p1, p2)).2 =
      dropLeadingWs le₀ chunks := by
    rw [handleLong_append_eq]
    exact happ
  refine ⟨pre0 ++ (handleLong width (p1, p2)).1, ?_, ?_⟩
  · have h2 : (mkLine width le₀ chunks).2 = (handleLong width (p1, p2)).2 := by
      simp [mkLine, hp]
    rw [h2, List.append_assoc, hq]
    exact hpre0
  · have h1 : (mkLine width le₀ chunks).1 =
        dropTrailingWs (handleLong width (p1, p2)).1 := by
      simp [mkLine, hp]
    rw [h1]
    exact (dropTrailingWs_sublist _).trans (List.sublist_append_right _ _)

theorem mkLine_sum_le (width : Nat) (le₀ : Bool) (chunks : List (List Char)) :
    (((mkLine width le₀ chunks).1).map List.length).sum ≤
      max width (maxChunkLen chunks) := by
  rcases hp : fillLine width 0 (dropLeadingWs le₀ chunks) with ⟨p1, p2⟩
  have happ : p1 ++ p2 = dropLeadingWs le₀ chunks := by
    have := fillLine_append width 0 (dropLeadingWs le₀ chunks)
    rw [hp] at this
    exact this
  have key : (((handleLong width (p1, p2)).1).map List.length).sum ≤
      max width (maxChunkLen chunks) := by
    cases p1 with
    | cons a as =>
      have hun : handleLong width (a :: as, p2) = (a :: as, p2) := by
        simp [handleLong]
      rw [hun]
      have hsum := fillLine_sum_le width (dropLeadingWs le₀ chunks) 0
      rw [hp] at hsum
      rcases hsum with h | h
      · simp at h
      · exact le_trans (by simpa using h) (le_max_left _ _)
    | nil =>
      cases p2 with
      | nil => simp [handleLong]
      | cons c cs =>
        by_cases hw : width < c.length
        · have hun : handleLong width ([], c :: cs) = ([c], cs) := by
            simp [handleLong, hw]
          rw [hun]
          have hcmem : c ∈ chunks := by
            obtain ⟨pre0, hpre0⟩ := dropLeadingWs_suffix le₀ chunks
            have hcl : c ∈ dropLeadingWs le₀ chunks := by
              rw [← happ]
              simp
            rw [hpre0]
            exact List.mem_append_right _ hcl
          exact le_trans (by simpa using le_maxChunkLen hcmem) (le_max_right _ _)
        · have hun : handleLong width ([], c :: cs) = ([], c :: cs) := by
            simp [handleLong, hw]
          rw [hun]
          simp
  have h1 : (mkLine width le₀ chunks).1 =
      dropTrailingWs (handleLong width (p1, p2)).1 := by
    simp [mkLine, hp]
  rw [h1]
  refine le_trans ?_ key
  exact List.Sublist.sum_le_sum ((dropTrailingWs_sublist _).map _)
    fun a _ => Nat.zero_le a

theorem wrapLoop_spec (width : Nat) :
    ∀ (n : Nat) (chunks : List (List Char)), chunks.length ≤ n → ∀ (le₀ : Bool),
      ((wrapLoop width le₀ chunks).flatten).Sublist chunks ∧
      ∀ ln ∈ wrapLoop width le₀ chunks,
        ((ln.map List.length).sum ≤ max width (maxChunkLen chunks)) := by
  intro n
  induction n with
  | zero =>
    intro chunks h le₀
    have hnil : chunks = [] := List.length_eq_zero.mp (Nat.le_antisymm h (Nat.zero_le _))
    subst hnil
    simp [wrapLoop]
  | succ n ih =>
    intro chunks hlen le₀
    cases hc : chunks with
    | nil => simp [wrapLoop]
    | cons c cs =>
      subst hc
      obtain ⟨pre, hpre, hsub⟩ := mkLine_decomp width le₀ (c :: cs)
      have hbound := mkLine_sum_le width le₀ (c :: cs)
      have hrest : (mkLine width le₀ (c :: cs)).2.length ≤ n := by
        have hlt := mkLine_rest_lt width le₀ (c :: cs) (by simp)
        simp only [List.length_cons] at hlt hlen
        omega
      have hmax : max width (maxChunkLen (mkLine width le₀ (c :: cs)).2) ≤
          max width (maxChunkLen (c :: cs)) := by
        refine max_le_max (Nat.le_refl _) ?_
        have hfin := maxChunkLen_append_right pre (mkLine width le₀ (c :: cs)).2
        rw [← hpre] at hfin
        exact hfin
      have hstep : wrapLoop width le₀ (c :: cs) =
          if (mkLine width le₀ (c :: cs)).1 = [] then
            wrapLoop width le₀ (mkLine width le₀ (c :: cs)).2
          else
            (mkLine width le₀ (c :: cs)).1 ::
              wrapLoop width true (mkLine width le₀ (c :: cs)).2 := by
        rw [wrapLoop]
      by_cases hemp : (mkLine width le₀ (c :: cs)).1 = []
      · rw [hstep, if_pos hemp]
        obtain ⟨ihs, ihb⟩ := ih _ hrest le₀
        constructor
        · refine ihs.trans ?_
          have hfin := List.sublist_append_right pre (mkLine width le₀ (c :: cs)).2
          rw [← hpre] at hfin
          exact hfin
        · exact fun ln hln => le_trans (ihb ln hln) hmax
      · rw [hstep, if_neg hemp]
        obtain ⟨ihs, ihb⟩ := ih _ hrest true
        constructor
        · simp only [List.flatten_cons]
          have hfin := List.Sublist.append hsub ihs
          rw [← hpre] at hfin
          exact hfin
        · intro ln hln
          rcases List.mem_cons.mp hln with rfl | hln
          · exact hbound
          · exact le_trans (ihb ln hln) hmax

/-- C5 amended: the wrapper never splits or alters a chunk — the word
fragments produced by its word separation, which itself may break a word at
eligible hyphen positions.  Every output line is a concatenation of whole
chunks taken in order (formally, the flattened lines form a sublist of the
chunk list), and every output line's length is at most the larger of the
23-character budget and the longest chunk's length, so a chunk exceeding
the budget is placed intact on a line of its own. -/
theorem wrap_lines_whole_chunks (text : String) :
    ((wrap_chunk_lines 23 text).flatten).Sublist (splitChunks text) ∧
    ∀ ln ∈ wrap_chunk_lines 23 text,
      (lineString ln).length ≤ max 23 (maxChunkLen (splitChunks text)) := by
  obtain ⟨h1, h2⟩ :=
    wrapLoop_spec 23 (splitChunks text).length (splitChunks text) (Nat.le_refl _) false
  refine ⟨h1, ?_⟩
  intro ln hln
  have hlen : (lineString ln).length = (ln.map List.length).sum := by
    have h0 : (lineString ln).length = ln.flatten.length := rfl
    rw [h0, List.length_flatten]
  rw [hlen]
  exact h2 ln hln

/-- C5 counterexample: on `"aaaaaaaaaaaa-bbbbbbbbbbbbbbb tail"` the wrapper
splits the single whitespace-delimited word
`aaaaaaaaaaaa-bbbbbbbbbbbbbbb` (28 characters) across two lines at its
hyphen (`break_on_hyphens` is left at its default), so the word appears in
no output line. -/
theorem wrap_splits_hyphenated_word :
    pyWords "aaaaaaaaaaaa-bbbbbbbbbbbbbbb tail" =
      ["aaaaaaaaaaaa-bbbbbbbbbbbbbbb", "tail"] ∧
    wrap_text_for_margins "aaaaaaaaaaaa-bbbbbbbbbbbbbbb tail" =
      "aaaaaaaaaaaa-\nbbbbbbbbbbbbbbb tail" ∧
    (wrap_chunk_lines 23 "aaaaaaaaaaaa-bbbbbbbbbbbbbbb tail").map lineString =
      ["aaaaaaaaaaaa-", "bbbbbbbbbbbbbbb tail"] ∧
    (["aaaaaaaaaaaa-", "bbbbbbbbbbbbbbb tail"].all
      fun l => !(pyContains l "aaaaaaaaaaaa-bbbbbbbbbbbbbbb")) = true := by
  refine ⟨?_, ?_, ?_, by decide⟩
  · simp [pyWords, splitWsAux, pyIsSpace]
  · simp [wrap_text_for_margins, textwrap_fill, wrap_chunk_lines, splitChunks,
      mungeWhitespace, expandTabsAux, pyIsSpace, chunkAux, emdashChunkHere, emdashAhead,
      takeWordAux, wordBreakHere, hyphLookbehind, hyphLookahead, isLetter, isWordChar,
      isWordPunct, wrapLoop, mkLine, dropLeadingWs, fillLine, handleLong, dropTrailingWs,
      isWsChunk, lineString, String.intercalate, String.intercalate.go]
  · simp [wrap_chunk_lines, splitChunks,
      mungeWhitespace, expandTabsAux, pyIsSpace, chunkAux, emdashChunkHere, emdashAhead,
      takeWordAux, wordBreakHere, hyphLookbehind, hyphLookahead, isLetter, isWordChar,
      isWordPunct, wrapLoop, mkLine, dropLeadingWs, fillLine, handleLong, dropTrailingWs,
      isWsChunk, lineString]

/-- Witness for C9 at used flags `""`, `no` and `0`: none of the three rows
is selected (there is no eligible row at all, so the selector returns
nothing and writes nothing). -/
theorem nonfalse_used_flag_never_selected_witness :
    ([⟨"", "", "sad", "a"⟩, ⟨"no", "", "sad", "b"⟩, ⟨"0", "", "sad", "c"⟩]
        : List CaptionRow)[1]? = some ⟨"no", "", "sad", "b"⟩ ∧
    pyUpper (pyStrip "no") ≠ "FALSE" ∧
    (∀ q, findEligible "Sad"
        [⟨"", "", "sad", "a"⟩, ⟨"no", "", "sad", "b"⟩, ⟨"0", "", "sad", "c"⟩] 0 ≠
        some (1, q)) ∧
    ∀ w ∈ (find_next_overlay_text
        [⟨"", "", "sad", "a"⟩, ⟨"no", "", "sad", "b"⟩, ⟨"0", "", "sad", "c"⟩] "Sad").2,
      w.row ≠ 1 + 2 :=
  ⟨by decide, by decide,
    nonfalse_used_flag_never_selected _ "Sad" 1 ⟨"no", "", "sad", "b"⟩
      (by decide) (by decide)⟩

end HookEditor
